import Mathlib

/-!
Verification development for the gulp-sass-dependency-tracker repository.

The JavaScript sources are shallowly embedded below:
* `src/dependency-tree.js`   — the `SassDependencyTree` class (`GSDT.Tree`);
* `src/dependency-tracker.js` — the `DependencyTracker` class (its `sass_tree`
  state, `reportCompiled`) and the `importRegex` scanner;
* `src/inspect-stream.js`    — the repeated-`exec` match loop;
* `src/resolve-sass-import.js` — the import resolution algorithm;
* `fileArgumentToNormalizedPath` — the polymorphic file-reference decoder.

JavaScript strings are modelled as Lean `String`s; the handful of string
primitives the sources use (`endsWith`, `startsWith`, `includes`,
`lastIndexOf`-based splitting, `indexOf`) are defined here over `String.data`
so that their algebra is available to proofs.  The external `path` ponyfill
(`normalize-path`, `path.join`, `is-absolute`, …) is not part of this
repository; it is modelled from the spec near its use sites.
-/

namespace GSDT

/-- JS `String.prototype.endsWith`, modelled over the character list. -/
def jsEndsWith (s suffix : String) : Bool :=
  suffix.data.isSuffixOf s.data

/-- JS `String.prototype.startsWith`, modelled over the character list. -/
def jsStartsWith (s pre : String) : Bool :=
  pre.data.isPrefixOf s.data

/-- JS `String.prototype.includes` for a single character. -/
def jsIncludesChar (s : String) (c : Char) : Bool :=
  s.data.contains c

/-- JS `Array.prototype.indexOf`: index of the first occurrence, `-1` if absent. -/
def jsIndexOf (l : List String) (x : String) : Int :=
  match l.findIdx? (· == x) with
  | some i => (i : Int)
  | none => -1

theorem jsEndsWith_append (s suffix : String) :
    jsEndsWith (s ++ suffix) suffix = true := by
  simp only [jsEndsWith, String.data_append]
  exact List.isSuffixOf_iff_suffix.mpr (List.suffix_append _ _)

/-! ## The dependency tree (`src/dependency-tree.js`)

`SassDependencyTree.internalTree` is a JS `Map` from a normalized path to an
entry `Map` holding keys `'recompile'`, `'path'` and `'dependencies'`.  A JS
`Map` iterates in insertion order and has unique keys, so the state is
embedded as a list of entries (insertion order) whose `path` fields act as
the keys.  Paths reaching the class have already gone through
`fileArgumentToNormalizedPath`; the graph operations below therefore take the
normalized path `String` directly (the FileRef decoding layer is embedded
separately, see `fileArgumentToNormalizedPath` further down). -/

/-- One entry of `internalTree`: the `'path'`, `'recompile'` and
`'dependencies'` keys set by `_getOrCreateEntry`. -/
structure Entry where
  path : String
  recompile : Bool
  dependencies : List String
deriving Repr, DecidableEq

/-- The `internalTree` map, in insertion order. -/
abbrev Tree := List Entry

/-- `internalTree.get(p)` (first entry whose key matches). -/
def findEntry (t : Tree) (p : String) : Option Entry :=
  t.find? (fun e => e.path == p)

/-- `internalTree.has(p)`. -/
def hasEntry (t : Tree) (p : String) : Bool :=
  t.any (fun e => e.path == p)

/-- `[_getOrCreateEntry]`: create a fresh entry (`recompile = true`, empty
dependency list) unless the key is already present; a `Map.set` on a new key
appends in iteration order. -/
def getOrCreate (t : Tree) (p : String) : Tree :=
  if hasEntry t p then t else t ++ [⟨p, true, []⟩]

/-- `entry.set('recompile', b)` on the entry keyed `p`. -/
def setRecompile (t : Tree) (p : String) (b : Bool) : Tree :=
  t.map (fun e => if e.path == p then { e with recompile := b } else e)

/-- `addDependency` after path normalization: get-or-create the source entry
and push the dependency path onto its list (the dependency's own node is not
created). -/
def addDependency (t : Tree) (s d : String) : Tree :=
  (getOrCreate t s).map
    (fun e => if e.path == s then { e with dependencies := e.dependencies ++ [d] } else e)

/-- `markAsCompiled` after path normalization. -/
def markAsCompiled (t : Tree) (p : String) : Tree :=
  setRecompile (getOrCreate t p) p false

/-- `isCompiled` after path normalization: get-or-create, then
`entry.get('recompile') === false` (a freshly created entry has
`recompile = true`, so an unknown file reports `false`). -/
def isCompiled (t : Tree) (p : String) : Bool :=
  match findEntry t p with
  | some e => e.recompile == false
  | none => false

/-- The dependency lists consulted by `_getDependencies`:
`entry.get('dependencies')` of the (possibly freshly created) entry. -/
def depsOf (t : Tree) (p : String) : List String :=
  ((findEntry t p).map (·.dependencies)).getD []

/-- The `dependingFiles` collected by `markAsNotCompiled`: keys (in iteration
order) of entries whose dependency list contains `p` and whose `recompile`
flag is `false`. -/
def dependents (t : Tree) (p : String) : List String :=
  (t.filter (fun e => e.dependencies.contains p && e.recompile == false)).map (·.path)

/-- The first half of `markAsNotCompiled`: get-or-create the entry for `p`
and set its `recompile` flag to `true`. -/
def markStep (t : Tree) (p : String) : Tree :=
  setRecompile (getOrCreate t p) p true

/-- `markAsNotCompiled`, with an explicit recursion budget: set the flag,
collect the clean dependents, then recurse on each of them left to right
(the `for (let dependent of dependingFiles)` loop is the `foldlM` over the
`Option` monad).  `none` means the budget was exhausted; `markNC_total`
below proves that the budget `muNC t p + 1` always suffices, which is the
termination argument for the JS recursion. -/
def markNCFuel : Nat → Tree → String → Option Tree
  | 0, _, _ => none
  | fuel + 1, t, p =>
    let t1 := markStep t p
    (dependents t1 p).foldlM (fun acc d => markNCFuel fuel acc d) t1

/-- The loop of `markAsNotCompiled`, as it appears inside `markNCFuel`. -/
def markNCList (fuel : Nat) (t : Tree) (ds : List String) : Option Tree :=
  ds.foldlM (fun acc d => markNCFuel fuel acc d) t

theorem markNCFuel_succ (fuel : Nat) (t : Tree) (p : String) :
    markNCFuel (fuel + 1) t p =
      markNCList fuel (markStep t p) (dependents (markStep t p) p) := rfl

theorem markNCList_nil (fuel : Nat) (t : Tree) :
    markNCList fuel t [] = some t := rfl

theorem markNCList_cons (fuel : Nat) (t : Tree) (d : String) (ds : List String) :
    markNCList fuel t (d :: ds) =
      (markNCFuel fuel t d).bind (fun t' => markNCList fuel t' ds) := by
  unfold markNCList
  rw [List.foldlM_cons]
  rfl

/-- Number of clean (`recompile = false`) entries; the recursion measure. -/
def cleanCount (t : Tree) : Nat :=
  t.countP (fun e => e.recompile == false)

/-- `p` has at least one clean entry. -/
def isCleanB (t : Tree) (p : String) : Bool :=
  t.any (fun e => e.path == p && e.recompile == false)

/-- Recursion-depth measure for `markAsNotCompiled`. -/
def muNC (t : Tree) (p : String) : Nat :=
  2 * cleanCount t + (if isCleanB t p then 0 else 1)

/-- `markAsNotCompiled` with the provably sufficient budget. -/
def markAsNotCompiled (t : Tree) (p : String) : Tree :=
  (markNCFuel (muNC t p + 1) t p).getD t

/-! ### Termination of the dirty propagation

During `markAsNotCompiled` the `recompile` flags only ever move from `false`
(clean) to `true` (dirty) and entries are only ever appended dirty, so the
number of clean entries is non-increasing, and it strictly decreases whenever
a clean node is flipped.  `Reach` packages exactly the facts needed. -/

theorem cleanCount_getOrCreate (t : Tree) (p : String) :
    cleanCount (getOrCreate t p) = cleanCount t := by
  unfold getOrCreate
  split
  · rfl
  · simp [cleanCount, List.countP_append, List.countP_cons]

theorem isCleanB_hasEntry {t : Tree} {p : String} (h : isCleanB t p = true) :
    hasEntry t p = true := by
  simp only [isCleanB, List.any_eq_true, Bool.and_eq_true] at h
  obtain ⟨e, he, hp, _⟩ := h
  simp only [hasEntry, List.any_eq_true]
  exact ⟨e, he, hp⟩

theorem countP_map_le_of {α : Type} (f : α → α) (q : α → Bool)
    (h : ∀ a, q (f a) = true → q a = true) (l : List α) :
    (l.map f).countP q ≤ l.countP q := by
  induction l with
  | nil => exact le_refl _
  | cons a l ih =>
    rw [List.map_cons, List.countP_cons, List.countP_cons]
    by_cases hq : q (f a) = true
    · rw [if_pos hq, if_pos (h a hq)]; omega
    · rw [if_neg hq]
      by_cases hq' : q a = true
      · rw [if_pos hq']; omega
      · rw [if_neg hq']; omega

theorem countP_map_lt_of {α : Type} (f : α → α) (q : α → Bool)
    (h : ∀ a, q (f a) = true → q a = true) {l : List α} {a : α}
    (ha : a ∈ l) (hqa : q a = true) (hfa : q (f a) = false) :
    (l.map f).countP q < l.countP q := by
  induction l with
  | nil => cases ha
  | cons b l ih =>
    rw [List.map_cons, List.countP_cons, List.countP_cons]
    rcases List.mem_cons.mp ha with hb | hb
    · subst hb
      rw [if_pos hqa, if_neg (by rw [hfa]; exact Bool.false_ne_true)]
      have := countP_map_le_of f q h l
      omega
    · have := ih hb
      by_cases hq : q (f b) = true
      · rw [if_pos hq, if_pos (h b hq)]; omega
      · rw [if_neg hq]
        by_cases hq' : q b = true
        · rw [if_pos hq']; omega
        · rw [if_neg hq']; omega

theorem cleanCount_setRecompileTrue_le (t : Tree) (p : String) :
    cleanCount (setRecompile t p true) ≤ cleanCount t := by
  unfold cleanCount setRecompile
  refine countP_map_le_of _ _ (fun e he => ?_) t
  by_cases hp : (e.path == p) = true
  · rw [if_pos hp] at he
    simp at he
  · rwa [if_neg hp] at he

theorem cleanCount_markStep_le (t : Tree) (p : String) :
    cleanCount (markStep t p) ≤ cleanCount t := by
  unfold markStep
  calc cleanCount (setRecompile (getOrCreate t p) p true)
      ≤ cleanCount (getOrCreate t p) := cleanCount_setRecompileTrue_le _ _
    _ = cleanCount t := cleanCount_getOrCreate t p

theorem cleanCount_setRecompileTrue_lt {t : Tree} {p : String}
    (h : isCleanB t p = true) :
    cleanCount (setRecompile t p true) < cleanCount t := by
  simp only [isCleanB, List.any_eq_true, Bool.and_eq_true] at h
  obtain ⟨e, he, hp, hr⟩ := h
  unfold cleanCount setRecompile
  refine countP_map_lt_of _ _ (fun a ha => ?_) he hr ?_
  · by_cases hap : (a.path == p) = true
    · rw [if_pos hap] at ha; simp at ha
    · rwa [if_neg hap] at ha
  · rw [if_pos hp]
    simp

theorem cleanCount_markStep_lt {t : Tree} {p : String}
    (h : isCleanB t p = true) :
    cleanCount (markStep t p) < cleanCount t := by
  unfold markStep
  have hh : hasEntry t p = true := isCleanB_hasEntry h
  have hsame : getOrCreate t p = t := by unfold getOrCreate; simp [hh]
  rw [hsame]
  exact cleanCount_setRecompileTrue_lt h

theorem isCleanB_setRecompileTrue_self (t : Tree) (p : String) :
    isCleanB (setRecompile t p true) p = false := by
  simp only [isCleanB, setRecompile, List.any_eq_false, List.mem_map]
  rintro x ⟨e, _, rfl⟩
  by_cases hp : (e.path == p) = true <;> simp [hp]

theorem isCleanB_markStep_self (t : Tree) (p : String) :
    isCleanB (markStep t p) p = false :=
  isCleanB_setRecompileTrue_self _ p

theorem hasEntry_markStep_self (t : Tree) (p : String) :
    hasEntry (markStep t p) p = true := by
  unfold markStep setRecompile
  have : hasEntry (getOrCreate t p) p = true := by
    unfold getOrCreate
    split
    · assumption
    · simp [hasEntry]
  simp only [hasEntry, List.any_eq_true] at this ⊢
  obtain ⟨e, he, hp⟩ := this
  refine ⟨if e.path == p then { e with recompile := true } else e, List.mem_map_of_mem _ he, ?_⟩
  simp [hp]

theorem hasEntry_markStep_mono {t : Tree} {p q : String}
    (h : hasEntry t q = true) : hasEntry (markStep t p) q = true := by
  unfold markStep setRecompile
  have hg : hasEntry (getOrCreate t p) q = true := by
    unfold getOrCreate
    split
    · exact h
    · simp only [hasEntry, List.any_eq_true] at h ⊢
      obtain ⟨e, he, hp⟩ := h
      exact ⟨e, List.mem_append_left _ he, hp⟩
  simp only [hasEntry, List.any_eq_true] at hg ⊢
  obtain ⟨e, he, hp⟩ := hg
  refine ⟨if e.path == p then { e with recompile := true } else e, List.mem_map_of_mem _ he, ?_⟩
  by_cases hep : (e.path == p) = true <;> simp [hep, hp]

theorem isCleanB_markStep_imp {t : Tree} {p q : String}
    (h : isCleanB (markStep t p) q = true) : isCleanB t q = true := by
  unfold markStep setRecompile at h
  simp only [isCleanB, List.any_eq_true, List.mem_map, Bool.and_eq_true] at h
  obtain ⟨x, ⟨e, he, rfl⟩, hq, hr⟩ := h
  by_cases hp : (e.path == p) = true
  · rw [if_pos hp] at hr
    simp at hr
  · rw [if_neg hp] at hq hr
    have he' : e ∈ t ∨ e = ⟨p, true, []⟩ := by
      unfold getOrCreate at he
      split at he
      · exact Or.inl he
      · rcases List.mem_append.mp he with h1 | h1
        · exact Or.inl h1
        · exact Or.inr (List.mem_singleton.mp h1)
    rcases he' with he' | rfl
    · simp only [isCleanB, List.any_eq_true]
      exact ⟨e, he', by rw [Bool.and_eq_true]; exact ⟨hq, hr⟩⟩
    · simp at hr

theorem isCleanB_markStep_of_ne {t : Tree} {p q : String}
    (hne : q ≠ p) (h : isCleanB t q = true) :
    isCleanB (markStep t p) q = true := by
  simp only [isCleanB, List.any_eq_true, Bool.and_eq_true] at h
  obtain ⟨e, he, hq, hr⟩ := h
  have heq : e.path = q := by simpa using hq
  have hep : (e.path == p) = false := by
    cases hcmp : e.path == p
    · rfl
    · exact absurd (heq ▸ (by simpa using hcmp)) hne
  unfold markStep setRecompile
  simp only [isCleanB, List.any_eq_true, List.mem_map]
  refine ⟨if e.path == p then { e with recompile := true } else e, ⟨e, ?_, rfl⟩, ?_⟩
  · unfold getOrCreate
    split
    · exact he
    · exact List.mem_append_left _ he
  · rw [if_neg (by simp [hep])]
    rw [Bool.and_eq_true]
    exact ⟨hq, hr⟩

/-- The facts preserved from a tree to any tree produced from it by
`markAsNotCompiled` steps. -/
structure Reach (t u : Tree) : Prop where
  count_le : cleanCount u ≤ cleanCount t
  clean_imp : ∀ q, isCleanB u q = true → isCleanB t q = true
  count_lt : ∀ q, isCleanB t q = true → isCleanB u q = false → cleanCount u < cleanCount t
  has_imp : ∀ q, hasEntry t q = true → hasEntry u q = true

theorem Reach.rfl (t : Tree) : Reach t t := by
  refine ⟨le_refl _, fun _ h => h, fun q h h' => ?_, fun _ h => h⟩
  rw [h] at h'
  cases h'

theorem Reach.trans {t u v : Tree} (h1 : Reach t u) (h2 : Reach u v) : Reach t v := by
  refine ⟨le_trans h2.count_le h1.count_le,
    fun q h => h1.clean_imp q (h2.clean_imp q h), fun q hq hv => ?_,
    fun q h => h2.has_imp q (h1.has_imp q h)⟩
  cases hu : isCleanB u q
  · exact lt_of_le_of_lt h2.count_le (h1.count_lt q hq hu)
  · exact lt_of_lt_of_le (h2.count_lt q hu hv) h1.count_le

theorem reach_markStep (t : Tree) (p : String) : Reach t (markStep t p) := by
  refine ⟨cleanCount_markStep_le t p, fun q h => isCleanB_markStep_imp h,
    fun q hq hq' => ?_, fun q h => hasEntry_markStep_mono h⟩
  by_cases hqp : q = p
  · subst hqp
    exact cleanCount_markStep_lt hq
  · exact absurd (isCleanB_markStep_of_ne hqp hq) (by simp [hq'])

theorem markNC_reach_aux : ∀ fuel : Nat,
    (∀ t p u, markNCFuel fuel t p = some u → Reach t u) ∧
    (∀ t ds u, markNCList fuel t ds = some u → Reach t u) := by
  intro fuel
  induction fuel with
  | zero =>
    constructor
    · intro t p u h; simp [markNCFuel] at h
    · intro t ds u h
      cases ds with
      | nil =>
        rw [markNCList_nil] at h
        cases h
        exact Reach.rfl t
      | cons d ds =>
        rw [markNCList_cons] at h
        simp [markNCFuel] at h
  | succ n ih =>
    have hf : ∀ t p u, markNCFuel (n + 1) t p = some u → Reach t u := by
      intro t p u h
      rw [markNCFuel_succ] at h
      exact Reach.trans (reach_markStep t p) (ih.2 _ _ _ h)
    refine ⟨hf, ?_⟩
    intro t ds
    induction ds generalizing t with
    | nil =>
      intro u h
      rw [markNCList_nil] at h
      cases h
      exact Reach.rfl t
    | cons d ds ihds =>
      intro u h
      rw [markNCList_cons, Option.bind_eq_some] at h
      obtain ⟨t', hcall, h⟩ := h
      exact Reach.trans (hf _ _ _ hcall) (ihds t' u h)

theorem markNC_reach {fuel : Nat} {t : Tree} {p : String} {u : Tree}
    (h : markNCFuel fuel t p = some u) : Reach t u :=
  (markNC_reach_aux fuel).1 t p u h

theorem mem_dependents_clean {t : Tree} {p d : String}
    (h : d ∈ dependents t p) : isCleanB t d = true := by
  simp only [dependents, List.mem_map, List.mem_filter, Bool.and_eq_true] at h
  obtain ⟨e, ⟨he, _, hr⟩, rfl⟩ := h
  simp only [isCleanB, List.any_eq_true]
  exact ⟨e, he, by simp [hr]⟩

theorem markNC_total_aux : ∀ fuel : Nat,
    (∀ t p, muNC t p < fuel → (markNCFuel fuel t p).isSome = true) ∧
    (∀ t0 t ds, Reach t0 t → (∀ d ∈ ds, isCleanB t0 d = true) →
      2 * cleanCount t0 < fuel → (markNCList fuel t ds).isSome = true) := by
  intro fuel
  induction fuel with
  | zero =>
    exact ⟨fun t p h => absurd h (by omega), fun t0 t ds _ _ h => absurd h (by omega)⟩
  | succ n ih =>
    have hf : ∀ t p, muNC t p < n + 1 → (markNCFuel (n + 1) t p).isSome = true := by
      intro t p h
      rw [markNCFuel_succ]
      refine ih.2 (markStep t p) (markStep t p) _ (Reach.rfl _)
        (fun d hd => mem_dependents_clean hd) ?_
      unfold muNC at h
      by_cases hc : isCleanB t p = true
      · have := cleanCount_markStep_lt hc
        simp only [hc, if_pos] at h
        omega
      · have := cleanCount_markStep_le t p
        simp only [Bool.not_eq_true] at hc
        simp only [hc, Bool.false_eq_true, if_false] at h
        omega
    refine ⟨hf, ?_⟩
    intro t0 t ds
    induction ds generalizing t with
    | nil => intro _ _ _; rw [markNCList_nil]; rfl
    | cons d ds ihds =>
      intro hreach hds hcount
      have hd0 : isCleanB t0 d = true := hds d (List.mem_cons_self d ds)
      have hmu : muNC t d < n + 1 := by
        unfold muNC
        by_cases hc : isCleanB t d = true
        · have := hreach.count_le
          simp only [hc, if_pos]
          omega
        · simp only [Bool.not_eq_true] at hc
          have := hreach.count_lt d hd0 hc
          simp only [hc, Bool.false_eq_true, if_false]
          omega
      have hsome := hf t d hmu
      rw [markNCList_cons]
      cases hcall : markNCFuel (n + 1) t d with
      | none => rw [hcall] at hsome; cases hsome
      | some t' =>
        show (markNCList (n + 1) t' ds).isSome = true
        exact ihds t' (Reach.trans hreach (markNC_reach hcall))
          (fun x hx => hds x (List.mem_cons_of_mem d hx)) hcount

theorem markNC_total (t : Tree) (p : String) :
    (markNCFuel (muNC t p + 1) t p).isSome = true :=
  (markNC_total_aux (muNC t p + 1)).1 t p (Nat.lt_succ_self _)

theorem isCompiled_eq_false_of {t : Tree} {p : String}
    (hclean : isCleanB t p = false) :
    isCompiled t p = false := by
  unfold isCompiled
  cases hfind : findEntry t p with
  | none => rfl
  | some e' =>
    unfold findEntry at hfind
    have he'mem : e' ∈ t := List.mem_of_find?_eq_some hfind
    have he'p : (e'.path == p) = true := (List.find?_eq_some.mp hfind).1
    simp only [isCleanB, List.any_eq_false] at hclean
    have h2 := hclean e' he'mem
    rw [Bool.and_eq_true, not_and] at h2
    show (e'.recompile == false) = false
    rw [Bool.not_eq_true] at h2
    exact h2 he'p

/-! ## Failing operations of `src/dependency-tree.js`

Two of the tree's methods can only be modelled as throwing:

* `removeDependency` calls `directDependencies.remove(dependencyIndex)`, but
  JavaScript arrays have no `remove` method (the `dependencies` value is a
  plain array literal `[]`), so whenever the index test succeeds the call
  `undefined(...)` raises a `TypeError`;
* `getDependencies` hands `dependencies.push` to `[_getDependencies]`
  detached from its array.  The module is in strict mode, so the aggregator
  is invoked with `this === undefined` and `Array.prototype.push` raises a
  `TypeError` (`ToObject(undefined)`) on its first invocation. -/

/-- The runtime errors arising in the embedded code. -/
inductive JsErr where
  | typeError
  | invalidFileReference
deriving Repr, DecidableEq

/-- `removeDependency` after path normalization: get-or-create the source
entry, look up the first index of the dependency path, and — when the index
is non-negative — invoke the nonexistent `Array.prototype.remove`, which
raises a `TypeError`.  When the path is absent the method returns normally,
having only performed the get-or-create. -/
def removeDependency (t : Tree) (s d : String) : Except JsErr Tree :=
  let t1 := getOrCreate t s
  let directDependencies := depsOf t1 s
  if 0 ≤ jsIndexOf directDependencies d then Except.error JsErr.typeError
  else Except.ok t1

/-- The detached `dependencies.push` passed as the aggregator: every
invocation raises a `TypeError` (strict mode, `this === undefined`). -/
def detachedPush : String → Except JsErr Unit := fun _ => Except.error JsErr.typeError

/-- An aggregator that always succeeds; used to analyse what the
`[_getDependencies]` recursion would do if the aggregator did not throw. -/
def okAgg : String → Except JsErr Unit := fun _ => Except.ok ()

/-- `[_getDependencies]` with an explicit recursion budget (`none` = budget
exhausted, i.e. the JS recursion has not returned within `fuel` nested
calls): iterate the entry's dependency list left to right, invoke the
aggregator (propagating its exception), and when `deep` recurse into each
dependency. -/
def getDepsAux (agg : String → Except JsErr Unit) (deep : Bool) :
    Nat → Tree → String → Option (Except JsErr Unit)
  | 0, _, _ => none
  | fuel + 1, t, p =>
    (depsOf t p).foldl
      (fun acc d =>
        match acc with
        | none => none
        | some (Except.error e) => some (Except.error e)
        | some (Except.ok ()) =>
          match agg d with
          | Except.error e => some (Except.error e)
          | Except.ok () =>
            if deep then getDepsAux agg deep fuel t d else some (Except.ok ()))
      (some (Except.ok ()))

/-- `getDependencies`: allocate the `dependencies` array, run
`[_getDependencies]` with the detached `push` as aggregator, and return the
array.  Since every aggregator invocation throws before appending, a normal
return can only happen when no dependency was visited, so the returned array
is always empty. -/
def getDependencies (t : Tree) (p : String) (deep : Bool) (fuel : Nat) :
    Option (Except JsErr (List String)) :=
  match getDepsAux detachedPush deep fuel t p with
  | none => none
  | some (Except.error e) => some (Except.error e)
  | some (Except.ok ()) => some (Except.ok [])

/-! ## The tracker state (`src/dependency-tracker.js`)

`DependencyTracker.sass_tree` maps a normalized path to an entry `Map` with
keys `'recompile'` and `'dependencies'` (no `'path'` key).  Embedded as an
association list in insertion order. -/

/-- One entry of `sass_tree`. -/
structure TEntry where
  recompile : Bool
  dependencies : List String
deriving Repr, DecidableEq

/-- The `sass_tree` map, in insertion order. -/
abbrev TTree := List (String × TEntry)

/-- `sass_tree.has(p)`. -/
def tHas (t : TTree) (p : String) : Bool := t.any (fun kv => kv.1 == p)

/-- `DependencyTracker.getOrCreateEntry`. -/
def tGetOrCreate (t : TTree) (p : String) : TTree :=
  if tHas t p then t else t ++ [(p, ⟨true, []⟩)]

/-- `entry.set('recompile', b)` on the tracker entry keyed `p`. -/
def tSetRecompile (t : TTree) (p : String) (b : Bool) : TTree :=
  t.map (fun kv => if kv.1 == p then (kv.1, { kv.2 with recompile := b }) else kv)

/-- `me.getOrCreateEntry(filePath).set('recompile', false)`. -/
def tMarkCompiled (t : TTree) (p : String) : TTree :=
  tSetRecompile (tGetOrCreate t p) p false

/-- The `'recompile'` flag of the entry keyed `p`, if the entry exists. -/
def flagOf (t : TTree) (p : String) : Option Bool :=
  (t.find? (fun kv => kv.1 == p)).map (fun kv => kv.2.recompile)

/-- The body of `reportCompiled` for one file descriptor, parameterized by
the external path normalization `norm`: walk `file.history` oldest to
newest and mark every historical name ending in `.scss` (checked on the raw
name) as compiled under its normalized form. -/
def reportCompiledFile (norm : String → String) (t : TTree) (history : List String) : TTree :=
  history.foldl
    (fun acc fp => if jsEndsWith fp ".scss" then tMarkCompiled acc (norm fp) else acc) t

/-- After `markAsNotCompiled t p`, the node `p` is dirty. -/
theorem markAsNotCompiled_self_dirty (t : Tree) (p : String) :
    isCompiled (markAsNotCompiled t p) p = false := by
  have htot := markNC_total t p
  rcases hcall : markNCFuel (muNC t p + 1) t p with _ | u
  · rw [hcall] at htot; cases htot
  · have hu : markAsNotCompiled t p = u := by
      unfold markAsNotCompiled; rw [hcall]; rfl
    rw [hu]
    have hcall' : markNCFuel (muNC t p + 1) t p = some u := hcall
    rw [markNCFuel_succ] at hcall'
    have hreach : Reach (markStep t p) u :=
      (markNC_reach_aux (muNC t p)).2 _ _ _ hcall'
    have hclean : isCleanB u p = false := by
      cases hcl : isCleanB u p
      · rfl
      · exact absurd (hreach.clean_imp p hcl) (by simp [isCleanB_markStep_self])
    exact isCompiled_eq_false_of hclean

/-! ### What `reportCompiled` does to the flags -/

theorem tHas_tGetOrCreate_self (t : TTree) (p : String) :
    tHas (tGetOrCreate t p) p = true := by
  unfold tGetOrCreate
  split
  · assumption
  · simp [tHas]

theorem flagOf_tSetRecompile_self {t : TTree} {p : String} {b : Bool}
    (h : tHas t p = true) : flagOf (tSetRecompile t p b) p = some b := by
  induction t with
  | nil => simp [tHas] at h
  | cons kv rest ih =>
    unfold flagOf tSetRecompile
    by_cases h1 : (kv.1 == p) = true
    · rw [List.map_cons, if_pos h1, List.find?_cons_of_pos _ (by simpa using h1)]
      rfl
    · rw [List.map_cons, if_neg h1, List.find?_cons_of_neg _ (by simpa using h1)]
      have h' : tHas rest p = true := by
        simp only [tHas, List.any_cons] at h
        rcases Bool.or_eq_true_iff.mp h with h2 | h2
        · exact absurd h2 h1
        · exact h2
      exact ih h'

theorem flagOf_tSetRecompile_ne {t : TTree} {p q : String} {b : Bool}
    (hne : q ≠ p) : flagOf (tSetRecompile t p b) q = flagOf t q := by
  induction t with
  | nil => rfl
  | cons kv rest ih =>
    unfold flagOf tSetRecompile
    by_cases h1 : (kv.1 == p) = true
    · have hkvp : kv.1 = p := by simpa using h1
      have hq : (kv.1 == q) = false := by
        rw [hkvp]
        exact beq_false_of_ne (fun hpq => hne hpq.symm)
      rw [List.map_cons, if_pos h1, List.find?_cons_of_neg _ (by simp [hq]),
        List.find?_cons_of_neg _ (by simp [hq])]
      exact ih
    · rw [List.map_cons, if_neg h1]
      by_cases h2 : (kv.1 == q) = true
      · rw [List.find?_cons_of_pos _ (by simpa using h2), List.find?_cons_of_pos _ (by simpa using h2)]
      · rw [List.find?_cons_of_neg _ (by simp [h2]), List.find?_cons_of_neg _ (by simp [h2])]
        exact ih

theorem flagOf_tGetOrCreate_ne {t : TTree} {p q : String}
    (hne : q ≠ p) : flagOf (tGetOrCreate t p) q = flagOf t q := by
  unfold tGetOrCreate
  split
  · rfl
  · unfold flagOf
    rw [List.find?_append]
    have : List.find? (fun kv => kv.1 == q) [(p, (⟨true, []⟩ : TEntry))] = none := by
      simp [beq_false_of_ne (fun hpq => hne hpq.symm)]
    rw [this]
    simp

theorem flagOf_tMarkCompiled_self (t : TTree) (p : String) :
    flagOf (tMarkCompiled t p) p = some false :=
  flagOf_tSetRecompile_self (tHas_tGetOrCreate_self t p)

theorem flagOf_tMarkCompiled_ne {t : TTree} {p q : String}
    (hne : q ≠ p) : flagOf (tMarkCompiled t p) q = flagOf t q := by
  unfold tMarkCompiled
  rw [flagOf_tSetRecompile_ne hne, flagOf_tGetOrCreate_ne hne]

/-- What one pass of `reportCompiled` does to every node's flag: exactly the
normalized forms of the history entries ending in `.scss` are set clean, and
every other node keeps its flag (or stays absent). -/
theorem flagOf_reportCompiledFile (norm : String → String) :
    ∀ (history : List String) (t : TTree) (q : String),
    flagOf (reportCompiledFile norm t history) q =
      (if ((history.filter (fun fp => jsEndsWith fp ".scss")).map norm).contains q
       then some false else flagOf t q) := by
  intro history
  induction history with
  | nil => intro t q; simp [reportCompiledFile]
  | cons fp h ih =>
    intro t q
    by_cases hscss : jsEndsWith fp ".scss" = true
    · have hrest : reportCompiledFile norm t (fp :: h) =
          reportCompiledFile norm (tMarkCompiled t (norm fp)) h := by
        simp [reportCompiledFile, hscss]
      rw [hrest, ih, List.filter_cons_of_pos (by simpa using hscss), List.map_cons]
      by_cases hq : q = norm fp
      · have hcons : ((norm fp :: List.map norm (List.filter (fun fp => jsEndsWith fp ".scss") h)).contains q) = true := by
          simp [List.contains_cons, hq]
        rw [hcons, if_pos rfl]
        split
        · rfl
        · rw [hq]
          exact flagOf_tMarkCompiled_self t (norm fp)
      · have hcons : ((norm fp :: List.map norm (List.filter (fun fp => jsEndsWith fp ".scss") h)).contains q)
            = (List.map norm (List.filter (fun fp => jsEndsWith fp ".scss") h)).contains q := by
          simp [List.contains_cons, beq_false_of_ne hq]
        rw [hcons]
        split
        · rfl
        · exact flagOf_tMarkCompiled_ne hq
    · have hrest : reportCompiledFile norm t (fp :: h) = reportCompiledFile norm t h := by
        simp [reportCompiledFile, hscss]
      rw [hrest, ih, List.filter_cons_of_neg (by simp [hscss])]

/-! ## Import resolution (`src/resolve-sass-import.js`)

The function queries the filesystem through `path.exists`; existence is
modelled as an oracle `fs : String → Bool`.  The `path` ponyfill delegates
to external packages; those are modelled from the spec ("absolute-resolution
and separator/format normalization"): the paths built in this development
are already `/`-separated and free of `.`/`..` segments, on which
normalization is the identity, so `pnormalize` is the identity function;
`pjoin` joins with a single separator; `process.cwd()` is the `cwd`
parameter. -/

/-- Modelled from the spec: the external `normalize-path` package.  On the
separator-clean paths appearing in this development it is the identity. -/
def pnormalize (s : String) : String := s

/-- Modelled from the spec: the external `is-absolute` package, for POSIX
paths. -/
def isAbsolutePath (s : String) : Bool := jsStartsWith s "/"

/-- Modelled from the spec: the external `path.join` package — concatenate
with a single `/` separator. -/
def pjoin (a b : String) : String :=
  if a = "" then b else if jsEndsWith a "/" then a ++ b else a ++ "/" ++ b

/-- Modelled from the spec: the external `relative` package's `toBase` — the
remainder of `target` under the base directory (only invoked when `target`
starts with `base`). -/
def prelative (base target : String) : String :=
  String.mk ((target.data.drop base.data.length).dropWhile (fun c => c == '/'))

/-- The `base`/`fileName` split of `resolveSassImport`: everything up to and
including the last `/` (empty if no separator), and the rest. -/
def jsSplitBase (s : String) : String × String :=
  if s.data.contains '/' then
    (String.mk ((s.data.reverse.dropWhile (fun c => !(c == '/'))).reverse),
     String.mk ((s.data.reverse.takeWhile (fun c => !(c == '/'))).reverse))
  else ("", s)

/-- The absolute include path computed at the top of `resolveSassImport`. -/
def absIncludeOf (cwd includePath : String) : String :=
  if isAbsolutePath includePath then pnormalize includePath
  else pnormalize (pjoin cwd includePath)

/-- The `build(a, b)` helper of `resolveSassImport`. -/
def buildCandidate (cwd includePath a b : String) : String :=
  pnormalize (pjoin (absIncludeOf cwd includePath) (pjoin a b))

/-- The `lookupPath` of `resolveSassImport`: append `.scss` when the import
path carries no explicit `.scss`/`.sass` extension. -/
def lookupOf (importPath : String) : String :=
  if !(jsEndsWith importPath ".scss") && !(jsEndsWith importPath ".sass")
  then importPath ++ ".scss" else importPath

/-- The plain candidate probed first for an import path. -/
def fullCandidate (cwd includePath importPath : String) : String :=
  buildCandidate cwd includePath (jsSplitBase (lookupOf importPath)).1
    (jsSplitBase (lookupOf importPath)).2

/-- The underscore-prefixed ("partial-convention") candidate probed second. -/
def underscoreCandidate (cwd includePath importPath : String) : String :=
  buildCandidate cwd includePath (jsSplitBase (lookupOf importPath)).1
    ("_" ++ (jsSplitBase (lookupOf importPath)).2)

/-- `resolveSassImport`, with filesystem existence as the oracle `fs`:
probe the plain candidate, then (unless the file name already starts with
`_`) the underscore candidate, then fall back to re-resolving relative to
the importing file's base (once: the recursion nulls the context), then —
when the import path had no explicit extension — retry the whole algorithm
with a `.sass` suffix. -/
def resolveSassImport (fs : String → Bool) (cwd : String)
    (importPath includePath : String) (contextPath : Option String) : Option String :=
  let lookupPath := lookupOf importPath
  let absoluteIncludePath := absIncludeOf cwd includePath
  let fileName := (jsSplitBase lookupPath).2
  let full := fullCandidate cwd includePath importPath
  let underscoreCand := underscoreCandidate cwd includePath importPath
  if fs full then some full
  else if !(jsStartsWith fileName "_") && fs underscoreCand then some underscoreCand
  else
    match contextPath with
    | some c0 =>
      let c1 := pnormalize c0
      let c := if isAbsolutePath c1 then c1 else pnormalize (pjoin cwd c1)
      if jsStartsWith c absoluteIncludePath then
        let relativeContext := prelative absoluteIncludePath c
        let fixedPath := pnormalize (pjoin relativeContext lookupPath)
        resolveSassImport fs cwd fixedPath includePath none
      else if hg : (!(jsEndsWith importPath ".scss") && !(jsEndsWith importPath ".sass")
          && jsEndsWith lookupPath ".scss") = true then
        resolveSassImport fs cwd (importPath ++ ".sass") includePath (some c)
      else none
    | none =>
      if hg : (!(jsEndsWith importPath ".scss") && !(jsEndsWith importPath ".sass")
          && jsEndsWith lookupPath ".scss") = true then
        resolveSassImport fs cwd (importPath ++ ".sass") includePath none
      else none
termination_by
  (if contextPath.isNone then 0 else 2) +
    (if jsEndsWith importPath ".scss" || jsEndsWith importPath ".sass" then 0 else 1)
decreasing_by
  · simp only [Option.isNone_some, Option.isNone_none, Bool.false_eq_true,
      eq_self_iff_true, if_false, if_true]
    split <;> (try split) <;> omega
  · simp only [Bool.and_eq_true, Bool.not_eq_true'] at hg
    simp only [Option.isNone_some, jsEndsWith_append, Bool.or_true, hg.1.1, hg.1.2,
      Bool.or_false, Bool.false_eq_true, if_false, if_true]
    try omega
  · simp only [Bool.and_eq_true, Bool.not_eq_true'] at hg
    simp only [Option.isNone_none, jsEndsWith_append, Bool.or_true, hg.1.1, hg.1.2,
      Bool.or_false, Bool.false_eq_true, if_false, if_true]
    try omega

/-! ### Behaviour of the resolver on the shapes the spec discusses -/

theorem string_append_right_inj {A x y : String} (h : A ++ x = A ++ y) : x = y := by
  have hd := congrArg String.data h
  rw [String.data_append, String.data_append] at hd
  have h2 := List.append_cancel_left hd
  cases x
  cases y
  exact congrArg String.mk h2

theorem pjoin_right_inj {a x y : String} (h : pjoin a x = pjoin a y) : x = y := by
  unfold pjoin at h
  split at h
  · exact h
  · split at h
    · exact string_append_right_inj h
    · rw [String.append_assoc, String.append_assoc] at h
      exact string_append_right_inj (string_append_right_inj h)

theorem pjoin_ne {a x y : String} (h : x ≠ y) : pjoin a x ≠ pjoin a y :=
  fun he => h (pjoin_right_inj he)

theorem lookupOf_noext {p : String} (h1 : jsEndsWith p ".scss" = false)
    (h2 : jsEndsWith p ".sass" = false) : lookupOf p = p ++ ".scss" := by
  unfold lookupOf
  rw [if_pos]
  rw [h1, h2]
  rfl

theorem lookupOf_sass (p : String) : lookupOf (p ++ ".sass") = p ++ ".sass" := by
  unfold lookupOf
  rw [if_neg]
  rw [jsEndsWith_append]
  simp

/-- The resolver on an extensionless import with no partial files on disk:
probe `p.scss` under the include path, then retry the whole algorithm with
`p.sass`, then give up. -/
theorem resolve_noext_char (fs : String → Bool) (cwd inc p : String)
    (hp1 : jsEndsWith p ".scss" = false) (hp2 : jsEndsWith p ".sass" = false)
    (hu1 : fs (underscoreCandidate cwd inc p) = false)
    (hu2 : fs (underscoreCandidate cwd inc (p ++ ".sass")) = false) :
    resolveSassImport fs cwd p inc none =
      (if fs (fullCandidate cwd inc p) then some (fullCandidate cwd inc p)
       else if fs (fullCandidate cwd inc (p ++ ".sass"))
       then some (fullCandidate cwd inc (p ++ ".sass")) else none) := by
  have hg1 : ((!jsEndsWith p ".scss" && !jsEndsWith p ".sass")
      && jsEndsWith (lookupOf p) ".scss") = true := by
    rw [hp1, hp2, lookupOf_noext hp1 hp2, jsEndsWith_append]
    rfl
  have hg2 : ((!jsEndsWith (p ++ ".sass") ".scss" && !jsEndsWith (p ++ ".sass") ".sass")
      && jsEndsWith (lookupOf (p ++ ".sass")) ".scss") = false := by
    rw [jsEndsWith_append]
    simp
  rw [resolveSassImport]
  simp only [hu1, Bool.and_false, Bool.false_eq_true, if_false, hg1, dif_pos]
  rw [resolveSassImport]
  simp only [hu2, Bool.and_false, Bool.false_eq_true, if_false, hg2, dif_neg]
  simp

/-- The resolver on an import that already carries an explicit extension:
no alternate-extension retry happens — only the plain and (when the file
name has no leading underscore) the partial candidate of `p` itself are
considered. -/
theorem resolve_ext_char (fs : String → Bool) (cwd inc p : String)
    (hp : jsEndsWith p ".scss" = true ∨ jsEndsWith p ".sass" = true) :
    resolveSassImport fs cwd p inc none =
      (if fs (fullCandidate cwd inc p) then some (fullCandidate cwd inc p)
       else if !(jsStartsWith (jsSplitBase (lookupOf p)).2 "_")
              && fs (underscoreCandidate cwd inc p)
       then some (underscoreCandidate cwd inc p) else none) := by
  have hg : ((!jsEndsWith p ".scss" && !jsEndsWith p ".sass")
      && jsEndsWith (lookupOf p) ".scss") = false := by
    rcases hp with hp | hp <;> rw [hp] <;> simp
  rw [resolveSassImport]
  simp only [hg, dif_neg, Bool.false_eq_true]
  simp

/-! ## Import scanning (`importRegex` and `src/inspect-stream.js`)

`importRegex` matches `@import `, a quote, a nonempty run over the class of
word characters, dots, slashes and hyphens (captured), a quote, and a
semicolon, with the global flag; the
`inspect` stream repeatedly calls `exec`, invoking the callback once per
match found left to right, resuming after the end of each match.  The regex
is embedded directly as a matcher over character lists: note that each of
the two quote positions independently matches either `'` or `"`. -/

/-- The regex's path character class: word characters (JS `\w`, i.e.
`A-Z`, `a-z`, `0-9`, `_`), dot, slash, hyphen. -/
def wordlike (c : Char) : Bool :=
  c.isAlphanum || c == '_' || c == '.' || c == '/' || c == '-'

/-- A single-quote character (codepoint 39). -/
def squoteChar : Char := Char.ofNat 39

/-- The character class `['"]`. -/
def isQuoteChar (c : Char) : Bool := c == squoteChar || c == '"'

/-- The literal prefix `@import ` of the regex. -/
def importLit : List Char := ['@', 'i', 'm', 'p', 'o', 'r', 't', ' ']

/-- One attempt of `importRegex` anchored at the head of the input: the
literal `@import `, a quote, a nonempty maximal run of path characters
(captured; maximality is forced by the regex since a quote is not a path
character), a quote, a semicolon.  On success: the captured group and the
remainder of the input after the match. -/
def matchImportAt (l : List Char) : Option (List Char × List Char) :=
  if l.take 8 = importLit then
    match l.drop 8 with
    | [] => none
    | q1 :: rest =>
      if isQuoteChar q1 then
        match rest.takeWhile wordlike with
        | [] => none
        | _ :: _ =>
          match rest.dropWhile wordlike with
          | q2 :: sc :: rest3 =>
            if isQuoteChar q2 && (sc == ';') then some (rest.takeWhile wordlike, rest3)
            else none
          | _ => none
      else none
  else none

theorem matchImportAt_length {l cap rest : List Char}
    (h : matchImportAt l = some (cap, rest)) : rest.length < l.length := by
  unfold matchImportAt at h
  by_cases hpre : l.take 8 = importLit
  case neg => rw [if_neg hpre] at h; cases h
  case pos =>
    rw [if_pos hpre] at h
    have hlen8 : l.length = 8 + (l.drop 8).length := by
      have := congrArg List.length (List.take_append_drop 8 l)
      rw [List.length_append, hpre] at this
      simpa [importLit] using this.symm
    rcases hd : l.drop 8 with _ | ⟨q1, r⟩ <;> rw [hd] at h <;> (try simp only [] at h)
    · cases h
    · by_cases hq1 : isQuoteChar q1 = true
      case neg => rw [if_neg hq1] at h; cases h
      case pos =>
        rw [if_pos hq1] at h
        rcases htake : r.takeWhile wordlike with _ | ⟨c, cs⟩ <;> rw [htake] at h <;>
          (try simp only [] at h)
        · cases h
        · rcases hdrop : r.dropWhile wordlike with _ | ⟨q2, rest2⟩ <;> rw [hdrop] at h <;>
            (try simp only [] at h)
          · cases h
          · rcases rest2 with _ | ⟨sc, rest3⟩ <;> (try simp only [] at h)
            · cases h
            · by_cases hfin : (isQuoteChar q2 && (sc == ';')) = true
              case neg => rw [if_neg hfin] at h; cases h
              case pos =>
                rw [if_pos hfin] at h
                cases h
                have hsub : (r.dropWhile wordlike).length ≤ r.length :=
                  (List.dropWhile_sublist wordlike).length_le
                rw [hdrop] at hsub
                rw [hlen8, hd]
                simp only [List.length_cons] at hsub ⊢
                omega

/-- The `while (match = regExp.exec(content))` loop of `inspect`, with a
budget: try a match at the cursor; on success emit the capture and resume
after the match, otherwise advance one character.  The budget
`l.length + 1` of `scanImports` is sufficient, since each step consumes at
least one character. -/
def scanImportsFuel : Nat → List Char → List (List Char)
  | 0, _ => []
  | fuel + 1, l =>
    match matchImportAt l with
    | some (cap, rest) => cap :: scanImportsFuel fuel rest
    | none =>
      match l with
      | [] => []
      | _ :: tail => scanImportsFuel fuel tail

/-- All captures of `importRegex` over the content, in textual order. -/
def scanImports (l : List Char) : List (List Char) :=
  scanImportsFuel (l.length + 1) l

/-- `scanImports` on a `String` content. -/
def scanImportsStr (s : String) : List String :=
  (scanImports s.data).map (fun l => String.mk l)

theorem scanImportsFuel_congr : ∀ f1 : Nat, ∀ (l : List Char) (f2 : Nat),
    l.length < f1 → l.length < f2 →
    scanImportsFuel f1 l = scanImportsFuel f2 l := by
  intro f1
  induction f1 with
  | zero => intro l f2 h1 _; exact absurd h1 (by omega)
  | succ n ih =>
    intro l f2 h1 h2
    rcases f2 with _ | m
    · exact absurd h2 (by omega)
    · rcases hm : matchImportAt l with _ | ⟨cap, rest⟩
      · rcases l with _ | ⟨c, tail⟩
        · simp only [scanImportsFuel, hm]
        · have hl1 : tail.length < n := by
            simp only [List.length_cons] at h1; omega
          have hl2 : tail.length < m := by
            simp only [List.length_cons] at h2; omega
          simp only [scanImportsFuel, hm]
          exact ih tail m hl1 hl2
      · have hlen := matchImportAt_length hm
        simp only [scanImportsFuel, hm]
        rw [ih rest m (by omega) (by omega)]

/-- The budget of `scanImports` is irrelevant as long as it exceeds the
input length: the embedded loop computes the untruncated sequence of
matches. -/
theorem scanImportsFuel_stable (fuel : Nat) (l : List Char) (h : l.length < fuel) :
    scanImportsFuel fuel l = scanImports l :=
  scanImportsFuel_congr fuel l (l.length + 1) h (Nat.lt_succ_self _)

/-! ### Which texts the scanner matches -/

theorem takeWhile_append_all {α : Type} {p : α → Bool} {l1 : List α} {d : α}
    {rest : List α} (h : l1.all p = true) (hd : p d = false) :
    (l1 ++ d :: rest).takeWhile p = l1 ∧ (l1 ++ d :: rest).dropWhile p = d :: rest := by
  induction l1 with
  | nil =>
    constructor
    · rw [List.nil_append, List.takeWhile_cons, hd]
      simp
    · rw [List.nil_append, List.dropWhile_cons, hd]
      simp
  | cons a l1 ih =>
    rw [List.all_cons, Bool.and_eq_true] at h
    obtain ⟨ha, hl⟩ := h
    have ⟨iht, ihd⟩ := ih hl
    constructor
    · rw [List.cons_append, List.takeWhile_cons, ha]
      simp [iht]
    · rw [List.cons_append, List.dropWhile_cons, ha]
      simp [ihd]

theorem wordlike_of_quote {q : Char} (h : isQuoteChar q = true) :
    wordlike q = false := by
  unfold isQuoteChar at h
  rcases Bool.or_eq_true_iff.mp h with h | h
  · rw [show q = squoteChar from by simpa using h]
    decide
  · rw [show q = '"' from by simpa using h]
    decide

/-- The complete characterization of a successful anchored match: the input
is the `@import ` literal, any quote, a nonempty wordlike capture, any quote
(independent of the first), a semicolon, and the remainder. -/
theorem matchImportAt_iff (l cap rest : List Char) :
    matchImportAt l = some (cap, rest) ↔
      ∃ q1 q2, isQuoteChar q1 = true ∧ isQuoteChar q2 = true ∧
        cap ≠ [] ∧ cap.all wordlike = true ∧
        l = importLit ++ q1 :: (cap ++ q2 :: ';' :: rest) := by
  constructor
  · intro h
    unfold matchImportAt at h
    by_cases hpre : l.take 8 = importLit
    case neg => rw [if_neg hpre] at h; cases h
    case pos =>
      rw [if_pos hpre] at h
      have hsplit : l = importLit ++ l.drop 8 := by
        conv_lhs => rw [← List.take_append_drop 8 l]
        rw [hpre]
      rcases hd : l.drop 8 with _ | ⟨q1, r⟩ <;> rw [hd] at h <;> (try simp only [] at h)
      · cases h
      · by_cases hq1 : isQuoteChar q1 = true
        case neg => rw [if_neg hq1] at h; cases h
        case pos =>
          rw [if_pos hq1] at h
          rcases htake : r.takeWhile wordlike with _ | ⟨c, cs⟩ <;> rw [htake] at h <;>
            (try simp only [] at h)
          · cases h
          · rcases hdrop : r.dropWhile wordlike with _ | ⟨q2, rest2⟩ <;> rw [hdrop] at h <;>
              (try simp only [] at h)
            · cases h
            · rcases rest2 with _ | ⟨sc, rest3⟩ <;> (try simp only [] at h)
              · cases h
              · by_cases hfin : (isQuoteChar q2 && (sc == ';')) = true
                case neg => rw [if_neg hfin] at h; cases h
                case pos =>
                  rw [if_pos hfin] at h
                  rw [Option.some.injEq, Prod.mk.injEq] at h
                  obtain ⟨hcap, hrest⟩ := h
                  rw [Bool.and_eq_true] at hfin
                  refine ⟨q1, q2, hq1, hfin.1, ?_, ?_, ?_⟩
                  · rw [← hcap]; simp
                  · rw [← hcap, ← htake]
                    exact List.all_eq_true.mpr
                      (fun x hx => List.mem_takeWhile_imp hx)
                  · have hsc : sc = ';' := by simpa using hfin.2
                    have hr : r = cap ++ q2 :: ';' :: rest := by
                      rw [← hcap, ← hrest, ← hsc]
                      rw [← hdrop, ← htake]
                      exact (List.takeWhile_append_dropWhile wordlike r).symm
                    rw [hsplit, hd, hr]
  · rintro ⟨q1, q2, hq1, hq2, hne, hall, rfl⟩
    rcases hcap : cap with _ | ⟨c, cs⟩
    · exact absurd hcap hne
    · subst hcap
      have hw2 : wordlike q2 = false := wordlike_of_quote hq2
      have ⟨ht, hd⟩ :=
        @takeWhile_append_all Char wordlike (c :: cs) q2 (';' :: rest) hall hw2
      unfold matchImportAt
      have hpre : (importLit ++ q1 :: (c :: cs ++ q2 :: ';' :: rest)).take 8 = importLit := by
        have := List.take_left importLit (q1 :: (c :: cs ++ q2 :: ';' :: rest))
        simpa [importLit] using this
      have hdrop8 : (importLit ++ q1 :: (c :: cs ++ q2 :: ';' :: rest)).drop 8
          = q1 :: (c :: cs ++ q2 :: ';' :: rest) := by
        have := List.drop_left importLit (q1 :: (c :: cs ++ q2 :: ';' :: rest))
        simpa [importLit] using this
      rw [if_pos hpre, hdrop8]
      simp only [ht, hd, if_pos hq1]
      simp [hq2]

/-- The import statement shape the specification's claim describes: as the
regex, but with MATCHING quotes around the path. -/
def strictMatchImportAt (l : List Char) : Option (List Char × List Char) :=
  if l.take 8 = importLit then
    match l.drop 8 with
    | [] => none
    | q1 :: rest =>
      if isQuoteChar q1 then
        match rest.takeWhile wordlike with
        | [] => none
        | _ :: _ =>
          match rest.dropWhile wordlike with
          | q2 :: sc :: rest3 =>
            if (q2 == q1) && (sc == ';') then some (rest.takeWhile wordlike, rest3)
            else none
          | _ => none
      else none
  else none

/-- The scanning loop of the claim's strict (matching-quotes) reading. -/
def strictScanFuel : Nat → List Char → List (List Char)
  | 0, _ => []
  | fuel + 1, l =>
    match strictMatchImportAt l with
    | some (cap, rest) => cap :: strictScanFuel fuel rest
    | none =>
      match l with
      | [] => []
      | _ :: tail => strictScanFuel fuel tail

/-- All strict (matching-quotes) captures over the content. -/
def strictScanImports (l : List Char) : List (List Char) :=
  strictScanFuel (l.length + 1) l

/-! ## FileRef decoding (`fileArgumentToNormalizedPath`)

The decoder accepts a Vinyl file, a JS `Map` holding a `'path'` key (whose
value is decoded recursively), a plain string, or an object exposing a
`path` property (own or inherited, non-nullish); everything else throws
`Cannot retrieve normalized path from: …`, embedded as
`JsErr.invalidFileReference`.  The JS value universe is embedded with one
constructor per shape the decoder discriminates; `jsMapP v` is a `Map`
whose `'path'` key holds `v`, `jsMapNoP` one without a `'path'` key, and the
`obj` constructor carries the own and the inherited `path` property (string
values, as in every use of the API).  `norm` and `resv` are the external
`path.normalize` and `path.resolve` functions, taken as parameters. -/

/-- The argument shapes `fileArgumentToNormalizedPath` discriminates. -/
inductive JsValue where
  | undef
  | jsNull
  | vinylFile (path : String)
  | jsMapP (v : JsValue)
  | jsMapNoP
  | str (s : String)
  | num (n : Int)
  | boolV (b : Bool)
  | obj (ownPath : Option String) (protoPath : Option String)
deriving Repr, DecidableEq

/-- `fileArgumentToNormalizedPath`: Vinyl files yield their normalized
`path`; a `Map` with a `'path'` key recurses on the value; strings are
resolved then normalized; objects with an own `path` property, or with a
non-nullish inherited one, resolve+normalize it; everything else throws. -/
def fileArgumentToNormalizedPath (norm resv : String → String) :
    JsValue → Except JsErr String
  | JsValue.vinylFile p => Except.ok (norm p)
  | JsValue.jsMapP v => fileArgumentToNormalizedPath norm resv v
  | JsValue.str s => Except.ok (norm (resv s))
  | JsValue.obj (some p) _ => Except.ok (norm (resv p))
  | JsValue.obj none (some p) => Except.ok (norm (resv p))
  | _ => Except.error JsErr.invalidFileReference

/-- The shapes the spec recognizes: a structured file handle with a path, a
key-value record containing a `'path'` key, a plain string, or a generic
record with a non-null `path` property. -/
def recognizedShape : JsValue → Bool
  | JsValue.vinylFile _ => true
  | JsValue.jsMapP _ => true
  | JsValue.str _ => true
  | JsValue.obj (some _) _ => true
  | JsValue.obj none (some _) => true
  | _ => false

/-! ### Graph operations at the FileRef boundary

Each public method of `SassDependencyTree` first normalizes its file
argument(s) and only then touches `internalTree`; an unparsable reference
therefore throws before any mutation. -/

/-- `addDependency(sourceFile, dependencyFile)` at the FileRef boundary. -/
def addDependencyF (norm resv : String → String) (t : Tree) (src dep : JsValue) :
    Except JsErr Tree := do
  let s ← fileArgumentToNormalizedPath norm resv src
  let d ← fileArgumentToNormalizedPath norm resv dep
  pure (addDependency t s d)

/-- `removeDependency(sourceFile, dependencyFile)` at the FileRef boundary. -/
def removeDependencyF (norm resv : String → String) (t : Tree) (src dep : JsValue) :
    Except JsErr Tree := do
  let s ← fileArgumentToNormalizedPath norm resv src
  let d ← fileArgumentToNormalizedPath norm resv dep
  removeDependency t s d

/-- `getDependencies(sourceFile, deep)` at the FileRef boundary. -/
def getDependenciesF (norm resv : String → String) (t : Tree) (src : JsValue)
    (deep : Bool) (fuel : Nat) : Option (Except JsErr (List String)) :=
  match fileArgumentToNormalizedPath norm resv src with
  | Except.error e => some (Except.error e)
  | Except.ok s => getDependencies t s deep fuel

/-- `markAsCompiled(sourceFile)` at the FileRef boundary. -/
def markAsCompiledF (norm resv : String → String) (t : Tree) (src : JsValue) :
    Except JsErr Tree := do
  let s ← fileArgumentToNormalizedPath norm resv src
  pure (markAsCompiled t s)

/-- `markAsNotCompiled(sourceFile)` at the FileRef boundary. -/
def markAsNotCompiledF (norm resv : String → String) (t : Tree) (src : JsValue) :
    Except JsErr Tree := do
  let s ← fileArgumentToNormalizedPath norm resv src
  pure (markAsNotCompiled t s)

/-- `isCompiled(sourceFile)` at the FileRef boundary. -/
def isCompiledF (norm resv : String → String) (t : Tree) (src : JsValue) :
    Except JsErr Bool := do
  let s ← fileArgumentToNormalizedPath norm resv src
  pure (isCompiled t s)

/-! ## The claims -/

/-- Claim C1, counterexample: the state with edges `A→B→C` where `A` and `C`
are clean but `B` is already dirty — reachable from the empty graph through
the public operations, as the second conjunct shows — refutes the claim:
after `markAsNotCompiled("C")`, the transitive dependent `A` still reports
`isCompiled == true`, because propagation stops at the already-dirty `B`. -/
theorem C1_propagation_counterexample :
    isCompiled (markAsNotCompiled
      [⟨"A", false, ["B"]⟩, ⟨"B", true, ["C"]⟩, ⟨"C", false, []⟩] "C") "A" = true ∧
    markAsCompiled (markAsNotCompiled (markAsCompiled (markAsCompiled (markAsCompiled
        (addDependency (addDependency [] "A" "B") "B" "C") "A") "B") "C") "B") "A"
      = [⟨"A", false, ["B"]⟩, ⟨"B", true, ["C"]⟩, ⟨"C", false, []⟩] := by
  decide

/-- Claim C1, amended: after `markAsNotCompiled(B)`, `B` itself is always
dirty, and the propagation dirties exactly the dependents reachable through
chains of previously-clean nodes; in particular, with edges `A→B` and `B→C`
where `A` and `B` were clean beforehand, `markAsNotCompiled(C)` leaves
`isCompiled` false on all of `A`, `B`, `C`, whatever `C`'s prior state. -/
theorem C1_propagation_amended :
    (∀ (t : Tree) (p : String), isCompiled (markAsNotCompiled t p) p = false) ∧
    (∀ c : Bool,
      isCompiled (markAsNotCompiled
        [⟨"A", false, ["B"]⟩, ⟨"B", false, ["C"]⟩, ⟨"C", c, []⟩] "C") "A" = false ∧
      isCompiled (markAsNotCompiled
        [⟨"A", false, ["B"]⟩, ⟨"B", false, ["C"]⟩, ⟨"C", c, []⟩] "C") "B" = false ∧
      isCompiled (markAsNotCompiled
        [⟨"A", false, ["B"]⟩, ⟨"B", false, ["C"]⟩, ⟨"C", c, []⟩] "C") "C" = false) :=
  ⟨markAsNotCompiled_self_dirty, by decide⟩

/-- Claim C2: `markAsNotCompiled` terminates on every finite graph state —
the recursion budget `muNC t p + 1` derived from the number of clean entries
always suffices — and on the two-cycle `A→B`, `B→A` the call
`markAsNotCompiled(A)` terminates leaving both `A` and `B` dirty. -/
theorem C2_markAsNotCompiled_terminates :
    (∀ (t : Tree) (p : String), (markNCFuel (muNC t p + 1) t p).isSome = true) ∧
    (isCompiled (markAsNotCompiled
        [⟨"A", false, ["B"]⟩, ⟨"B", false, ["A"]⟩] "A") "A" = false ∧
     isCompiled (markAsNotCompiled
        [⟨"A", false, ["B"]⟩, ⟨"B", false, ["A"]⟩] "A") "B" = false) :=
  ⟨markNC_total, by decide⟩

/-- Claim C3, code bug: `getDependencies(f, deep=false)` passes
`dependencies.push` to the traversal detached from its array, so in strict
mode the first aggregator call throws a `TypeError`; any node with at least
one dependency therefore raises instead of returning its dependency list
(first conjunct), and only a node with no dependencies returns (the empty
list, second conjunct). -/
theorem C3_getDependencies_bug :
    getDependencies [⟨"s", true, ["d"]⟩] "s" false 5
      = some (Except.error JsErr.typeError) ∧
    getDependencies [⟨"e", true, []⟩] "e" false 5 = some (Except.ok []) :=
  ⟨rfl, rfl⟩

/-- Claim C4, code bug: when the dependency path occurs in the source's
list, `removeDependency` invokes the nonexistent `Array.prototype.remove`
and throws a `TypeError` (first conjunct, even with a duplicate occurrence
present); when it does not occur the call is indeed a no-op apart from the
get-or-create of the source node and does not fail (second and third
conjuncts). -/
theorem C4_removeDependency_bug :
    removeDependency [⟨"s", true, ["d", "d"]⟩] "s" "d" = Except.error JsErr.typeError ∧
    removeDependency [⟨"s", true, ["x"]⟩] "s" "d" = Except.ok [⟨"s", true, ["x"]⟩] ∧
    removeDependency [] "s" "d" = Except.ok [⟨"s", true, []⟩] :=
  ⟨rfl, rfl, rfl⟩

/-- Claim C5, code bug: on a cyclic graph, the deep traversal of
`[_getDependencies]` has no visited set — with a non-throwing aggregator the
recursion on the self-loop `a→a` exhausts every finite budget (first
conjunct: `none` for all budgets, i.e. the recursion does not return) — and
the actual `getDependencies(a, deep=true)` does not return the depth-first
expansion but throws the detached-`push` `TypeError` (second conjunct). -/
theorem C5_deep_traversal_bug :
    (∀ fuel : Nat, getDepsAux okAgg true fuel [⟨"a", true, ["a"]⟩] "a" = none) ∧
    getDependencies [⟨"a", true, ["a"]⟩] "a" true 5
      = some (Except.error JsErr.typeError) := by
  constructor
  · intro fuel
    induction fuel with
    | zero => rfl
    | succ n ih =>
      show ((depsOf [⟨"a", true, ["a"]⟩] "a").foldl _ (some (Except.ok ()))) = none
      have hd : depsOf [⟨"a", true, ["a"]⟩] "a" = ["a"] := rfl
      rw [hd, List.foldl_cons, List.foldl_nil]
      show (if true = true then getDepsAux okAgg true n [⟨"a", true, ["a"]⟩] "a"
            else some (Except.ok ())) = none
      rw [if_pos rfl, ih]
  · rfl

/-- The resolver on the import `"_partial"`: since the file name already
starts with an underscore, the underscore-prefixed candidate is never
consulted; only the plain `.scss` candidate and — on the
extensionless-retry round — the plain `.sass` candidate are probed. -/
theorem resolve_underscore_char (fs : String → Bool) (cwd inc : String) :
    resolveSassImport fs cwd "_partial" inc none =
      (if fs (fullCandidate cwd inc "_partial")
       then some (fullCandidate cwd inc "_partial")
       else if fs (fullCandidate cwd inc ("_partial" ++ ".sass"))
       then some (fullCandidate cwd inc ("_partial" ++ ".sass")) else none) := by
  have hs1 : (!(jsStartsWith (jsSplitBase (lookupOf "_partial")).2 "_")) = false := by
    decide
  have hs2 : (!(jsStartsWith (jsSplitBase (lookupOf ("_partial" ++ ".sass"))).2 "_"))
      = false := by decide
  have hg1 : ((!jsEndsWith "_partial" ".scss" && !jsEndsWith "_partial" ".sass")
      && jsEndsWith (lookupOf "_partial") ".scss") = true := by decide
  have hg2 : ((!jsEndsWith ("_partial" ++ ".sass") ".scss"
      && !jsEndsWith ("_partial" ++ ".sass") ".sass")
      && jsEndsWith (lookupOf ("_partial" ++ ".sass")) ".scss") = false := by decide
  rw [resolveSassImport]
  simp only [hs1, Bool.false_and, Bool.false_eq_true, if_false, hg1, dif_pos]
  rw [resolveSassImport]
  simp only [hs2, Bool.false_and, Bool.false_eq_true, if_false, hg2, dif_neg]
  simp

/-- Claim C6: with filesystem existence as an oracle — (1) when
`partial.scss` does not exist under the include path but `_partial.scss`
does, `resolve("partial", includeDir, null)` returns the `_partial.scss`
candidate; (2) for `resolve("_partial", includeDir, null)` the result is the
`_partial.scss` candidate exactly when that candidate exists, and the
outcome is independent of the oracle's answers on the extra
underscore-prefixed candidates (`__partial.scss`, `__partial.sass`), which
are never searched. -/
theorem C6_partial_resolution :
    (∀ (fs : String → Bool) (cwd inc : String),
      fs (fullCandidate cwd inc "partial") = false →
      fs (underscoreCandidate cwd inc "partial") = true →
      resolveSassImport fs cwd "partial" inc none
        = some (underscoreCandidate cwd inc "partial")) ∧
    (∀ (fs : String → Bool) (cwd inc : String),
      (resolveSassImport fs cwd "_partial" inc none
          = some (fullCandidate cwd inc "_partial")
        ↔ fs (fullCandidate cwd inc "_partial") = true) ∧
      (∀ fs2 : String → Bool,
        (∀ s, s ≠ underscoreCandidate cwd inc "_partial" →
              s ≠ underscoreCandidate cwd inc ("_partial" ++ ".sass") →
              fs s = fs2 s) →
        resolveSassImport fs cwd "_partial" inc none
          = resolveSassImport fs2 cwd "_partial" inc none)) := by
  constructor
  · intro fs cwd inc h1 h2
    rw [resolveSassImport]
    simp only [h1, h2]
    norm_num
    intro hst
    exact absurd hst (by decide)
  · intro fs cwd inc
    have hF1 : fullCandidate cwd inc "_partial"
        = pjoin (absIncludeOf cwd inc) "_partial.scss" := rfl
    have hF2 : fullCandidate cwd inc ("_partial" ++ ".sass")
        = pjoin (absIncludeOf cwd inc) "_partial.sass" := rfl
    have hne : fullCandidate cwd inc ("_partial" ++ ".sass")
        ≠ fullCandidate cwd inc "_partial" := by
      rw [hF1, hF2]
      exact pjoin_ne (by decide)
    constructor
    · rw [resolve_underscore_char]
      constructor
      · intro h
        by_cases h1 : fs (fullCandidate cwd inc "_partial") = true
        · exact h1
        · rw [if_neg h1] at h
          split at h
          · exact absurd (Option.some.injEq _ _ ▸ h) (by simpa using hne)
          · cases h
      · intro h1
        rw [if_pos h1]
    · intro fs2 hagree
      have e1 : fs (fullCandidate cwd inc "_partial")
          = fs2 (fullCandidate cwd inc "_partial") := by
        refine hagree _ ?_ ?_ <;>
          · rw [hF1]
            exact pjoin_ne (by decide)
      have e2 : fs (fullCandidate cwd inc ("_partial" ++ ".sass"))
          = fs2 (fullCandidate cwd inc ("_partial" ++ ".sass")) := by
        refine hagree _ ?_ ?_ <;>
          · rw [hF2]
            exact pjoin_ne (by decide)
      rw [resolve_underscore_char, resolve_underscore_char, e1, e2]

/-- Claim C6, witness instance: only `/inc/_partial.scss` exists. -/
theorem C6_partial_resolution_witness :
    resolveSassImport (fun s => s == "/inc/_partial.scss") "/" "partial" "/inc" none
      = some (underscoreCandidate "/" "/inc" "partial") ∧
    (resolveSassImport (fun s => s == "/inc/_partial.scss") "/" "_partial" "/inc" none
        = some (fullCandidate "/" "/inc" "_partial")
      ↔ (fun s : String => s == "/inc/_partial.scss") (fullCandidate "/" "/inc" "_partial")
          = true) :=
  ⟨C6_partial_resolution.1 _ "/" "/inc" (by decide) (by decide),
   (C6_partial_resolution.2 (fun s => s == "/inc/_partial.scss") "/" "/inc").1⟩

/-- Claim C7: with filesystem existence as an oracle — (1) for an import
path with no explicit `.scss`/`.sass` extension and no partial candidates
present, the resolver returns the `p.scss` candidate if it exists, else
(retrying the whole algorithm once with the `.sass` suffix) the `p.sass`
candidate if it exists, else `none`; (2) when the import path already ends
in `.scss` or `.sass`, no alternate-extension retry happens: only the plain
candidate and (for a file name without a leading underscore) the partial
candidate of `p` itself are consulted. -/
theorem C7_extension_inference :
    (∀ (fs : String → Bool) (cwd inc p : String),
      jsEndsWith p ".scss" = false → jsEndsWith p ".sass" = false →
      fs (underscoreCandidate cwd inc p) = false →
      fs (underscoreCandidate cwd inc (p ++ ".sass")) = false →
      resolveSassImport fs cwd p inc none =
        (if fs (fullCandidate cwd inc p) then some (fullCandidate cwd inc p)
         else if fs (fullCandidate cwd inc (p ++ ".sass"))
         then some (fullCandidate cwd inc (p ++ ".sass")) else none)) ∧
    (∀ (fs : String → Bool) (cwd inc p : String),
      (jsEndsWith p ".scss" = true ∨ jsEndsWith p ".sass" = true) →
      resolveSassImport fs cwd p inc none =
        (if fs (fullCandidate cwd inc p) then some (fullCandidate cwd inc p)
         else if !(jsStartsWith (jsSplitBase (lookupOf p)).2 "_")
                && fs (underscoreCandidate cwd inc p)
         then some (underscoreCandidate cwd inc p) else none)) :=
  ⟨resolve_noext_char, resolve_ext_char⟩

/-- Claim C7, witness instance: `foo` resolves to `/inc/foo.sass` when only
that file exists, and an explicit `foo.scss` import is not retried with the
alternate extension. -/
theorem C7_extension_inference_witness :
    resolveSassImport (fun s => s == "/inc/foo.sass") "/" "foo" "/inc" none =
      (if (fun s : String => s == "/inc/foo.sass") (fullCandidate "/" "/inc" "foo")
       then some (fullCandidate "/" "/inc" "foo")
       else if (fun s : String => s == "/inc/foo.sass")
           (fullCandidate "/" "/inc" ("foo" ++ ".sass"))
       then some (fullCandidate "/" "/inc" ("foo" ++ ".sass")) else none) ∧
    resolveSassImport (fun s => s == "/inc/foo.sass") "/" "foo.scss" "/inc" none =
      (if (fun s : String => s == "/inc/foo.sass") (fullCandidate "/" "/inc" "foo.scss")
       then some (fullCandidate "/" "/inc" "foo.scss")
       else if !(jsStartsWith (jsSplitBase (lookupOf "foo.scss")).2 "_")
              && (fun s : String => s == "/inc/foo.sass")
                  (underscoreCandidate "/" "/inc" "foo.scss")
       then some (underscoreCandidate "/" "/inc" "foo.scss") else none) :=
  ⟨C7_extension_inference.1 _ "/" "/inc" "foo" (by decide) (by decide) (by decide)
      (by decide),
   C7_extension_inference.2 _ "/" "/inc" "foo.scss" (Or.inl (by decide))⟩

/-- Claim C8: one pass of `reportCompiled` over a file descriptor sets the
dirty flag to `false` exactly on the normalized forms of the rename-history
entries ending in `.scss`, and changes no other node's flag; in particular a
descriptor whose current path is `child.css` but whose history contains
`child.scss` leaves `child.scss`'s node clean. -/
theorem C8_reportCompiled_rename :
    (∀ (norm : String → String) (history : List String) (t : TTree) (q : String),
      flagOf (reportCompiledFile norm t history) q =
        (if ((history.filter (fun fp => jsEndsWith fp ".scss")).map norm).contains q
         then some false else flagOf t q)) ∧
    flagOf (reportCompiledFile id [] ["/x/child.scss", "/x/child.css"]) "/x/child.scss"
      = some false :=
  ⟨flagOf_reportCompiledFile, by decide⟩

/-- Claim C9: every argument matching none of the recognized FileRef shapes
(including `null` and `undefined`) makes `fileArgumentToNormalizedPath`
throw the invalid-file-reference error, and therefore makes every graph
operation fail with that error before touching the graph — no default path
is ever substituted. -/
theorem C9_invalid_reference (norm resv : String → String) (t : Tree)
    (v w : JsValue) (deep : Bool) (fuel : Nat)
    (h : recognizedShape v = false) :
    fileArgumentToNormalizedPath norm resv v = Except.error JsErr.invalidFileReference ∧
    addDependencyF norm resv t v w = Except.error JsErr.invalidFileReference ∧
    removeDependencyF norm resv t v w = Except.error JsErr.invalidFileReference ∧
    getDependenciesF norm resv t v deep fuel
      = some (Except.error JsErr.invalidFileReference) ∧
    markAsCompiledF norm resv t v = Except.error JsErr.invalidFileReference ∧
    markAsNotCompiledF norm resv t v = Except.error JsErr.invalidFileReference ∧
    isCompiledF norm resv t v = Except.error JsErr.invalidFileReference := by
  have herr : fileArgumentToNormalizedPath norm resv v
      = Except.error JsErr.invalidFileReference := by
    cases v with
    | obj op pp => cases op <;> cases pp <;> simp_all [recognizedShape,
        fileArgumentToNormalizedPath]
    | _ => simp_all [recognizedShape, fileArgumentToNormalizedPath]
  refine ⟨herr, ?_, ?_, ?_, ?_, ?_, ?_⟩ <;>
    simp only [addDependencyF, removeDependencyF, getDependenciesF, markAsCompiledF,
      markAsNotCompiledF, isCompiledF, herr] <;> rfl

/-- Claim C9, witness instance: `null` is rejected by every operation. -/
theorem C9_invalid_reference_witness :
    recognizedShape JsValue.jsNull = false ∧
    (fileArgumentToNormalizedPath id id JsValue.jsNull
        = Except.error JsErr.invalidFileReference ∧
      addDependencyF id id [] JsValue.jsNull (JsValue.str "x")
        = Except.error JsErr.invalidFileReference ∧
      removeDependencyF id id [] JsValue.jsNull (JsValue.str "x")
        = Except.error JsErr.invalidFileReference ∧
      getDependenciesF id id [] JsValue.jsNull false 1
        = some (Except.error JsErr.invalidFileReference) ∧
      markAsCompiledF id id [] JsValue.jsNull = Except.error JsErr.invalidFileReference ∧
      markAsNotCompiledF id id [] JsValue.jsNull
        = Except.error JsErr.invalidFileReference ∧
      isCompiledF id id [] JsValue.jsNull = Except.error JsErr.invalidFileReference) :=
  ⟨by decide, C9_invalid_reference id id [] JsValue.jsNull (JsValue.str "x") false 1
    (by decide)⟩

/-- Claim C10, counterexample: the content `@import 'a";` — whose quotes do
not match, so it contains no substring of the claim's exact forms, as the
strict matching-quotes scan (second conjunct) confirms — nevertheless
triggers one detection with capture `a`: the regex's two quote positions
match independently. -/
theorem C10_import_regex_counterexample :
    scanImportsStr "@import 'a\";" = ["a"] ∧
    strictScanImports "@import 'a\";".data = [] := by
  constructor <;> rfl

/-- Claim C10, amended: an import is detected exactly for text of the form
`@import` + space + quote + nonempty run over the path character class
(captured) + quote + semicolon, where the two quotes are each independently
`'` or `"` and need not match; the scan emits one capture per occurrence in
textual order, resuming after each match, and matches nothing else (comma
lists, spaces in the path, unquoted paths, or a missing semicolon trigger no
callback, as in the concrete second conjunct). -/
theorem C10_import_regex_amended :
    (∀ (l cap rest : List Char),
      matchImportAt l = some (cap, rest) ↔
        ∃ q1 q2, isQuoteChar q1 = true ∧ isQuoteChar q2 = true ∧
          cap ≠ [] ∧ cap.all wordlike = true ∧
          l = importLit ++ q1 :: (cap ++ q2 :: ';' :: rest)) ∧
    scanImportsStr "@import 'a'; x @import \"b\"; @import c; @import 'x y'; @import 'z'"
      = ["a", "b"] :=
  ⟨matchImportAt_iff, by rfl⟩

end GSDT
